import Mathlib

set_option maxRecDepth 8192

/- Verification development for the OCR agent component
   (src/components/OcrAgent.tsx): the text-to-rows parser, the
   recognition job orchestrator and the row accumulator.
   ECMAScript strings are modelled as lists of characters, and the
   ECMAScript string/regular-expression primitives the component uses
   (String.prototype.trim, String.prototype.split, RegExp) are
   modelled explicitly below. -/

/-- ECMAScript white space and line terminators: the character set matched
by the regular-expression class backslash-s and stripped by
String.prototype.trim. -/
def isJsWS (c : Char) : Bool :=
  c = ' ' || c = '\t' || c = '\n' || c = '\r' ||
  c = '\x0b' || c = '\x0c' || c = '\u00a0' ||
  c = '\u1680' || ('\u2000' ≤ c && c ≤ '\u200a') ||
  c = '\u2028' || c = '\u2029' || c = '\u202f' ||
  c = '\u205f' || c = '\u3000' || c = '\ufeff'

/-- String.prototype.trim: strip white space from both ends. -/
def jsTrim (s : List Char) : List Char :=
  ((s.dropWhile isJsWS).reverse.dropWhile isJsWS).reverse

/-- Core loop of the ECMAScript String.prototype.split algorithm.
`m suffix` is the separator regular expression matched at the start of
`suffix` (returning the number of characters consumed, or `none`);
`acc` is the piece accumulated since the last separator.  An empty
match at the start of the current piece does not split (the ES
`e = p` rule); any other match emits the accumulated piece.  The fuel
argument only drives the recursion; every step consumes at least one
input character, so `s.length + 1` fuel is always sufficient. -/
def jsSplitF (m : List Char → Option Nat) : Nat → List Char → List Char → List (List Char)
  | _, acc, [] => [acc]
  | 0, acc, s => [acc ++ s]
  | fuel + 1, acc, c :: rest =>
    match m (c :: rest) with
    | none => jsSplitF m fuel (acc ++ [c]) rest
    | some 0 =>
      if acc.isEmpty then jsSplitF m fuel [c] rest
      else acc :: jsSplitF m fuel [c] rest
    | some (n + 1) => acc :: jsSplitF m fuel [] (rest.drop n)

/-- ECMAScript `s.split(re)`: the empty string yields `[]` when the
separator matches the empty string and `[""]` otherwise; a non-empty
string is processed by the split loop. -/
def jsSplit (m : List Char → Option Nat) (s : List Char) : List (List Char) :=
  match s with
  | [] => (match m [] with | some _ => [] | none => [[]])
  | _ => jsSplitF m (s.length + 1) [] s

/-- Match of the line separator regular expression (carriage return
optional, then line feed) at the start of a suffix, as used by
`text.split(...)` in `parseTextToRows`. -/
def matchEOL : List Char → Option Nat
  | [] => none
  | [c] => if c = '\n' then some 1 else none
  | c :: d :: _ => if c = '\r' ∧ d = '\n' then some 2 else if c = '\n' then some 1 else none

/-- Length of the leading white-space run of a suffix. -/
def wsRunLen (s : List Char) : Nat := (s.takeWhile isJsWS).length

/-- Match of the pipe separator (white space, a pipe character, white
space) at the start of a suffix. -/
def matchPipeAt (s : List Char) : Option Nat :=
  match s.drop (wsRunLen s) with
  | '|' :: r => some (wsRunLen s + 1 + wsRunLen r)
  | _ => none

/-- Match of the comma separator (white space, a comma, white space) at
the start of a suffix. -/
def matchCommaAt (s : List Char) : Option Nat :=
  match s.drop (wsRunLen s) with
  | ',' :: r => some (wsRunLen s + 1 + wsRunLen r)
  | _ => none

/-- Match of the literal tab separator at the start of a suffix. -/
def matchTabAt : List Char → Option Nat
  | '\t' :: _ => some 1
  | _ => none

/-- Match of the multi-space separator (a run of two or more white-space
characters) at the start of a suffix. -/
def matchSpacesAt (s : List Char) : Option Nat :=
  if 2 ≤ wsRunLen s then some (wsRunLen s) else none

/-- Match of the plain one-character string separator "," used by
`columnsInput.split(",")`. -/
def matchCommaChar : List Char → Option Nat
  | ',' :: _ => some 1
  | _ => none

/-- Atoms of the modelled regular-expression subset: a literal
character, the dot, or one of the one-letter character classes. -/
inductive RAtom where
  | lit (c : Char)
  | anyChar
  | clsS | clsSneg | clsD | clsDneg | clsW | clsWneg
  deriving DecidableEq

/-- Decimal digit test (the regular-expression class backslash-d). -/
def isDigitCh (c : Char) : Bool := '0' ≤ c && c ≤ '9'

/-- Word-character test (the regular-expression class backslash-w). -/
def isWordCh (c : Char) : Bool :=
  isDigitCh c || ('a' ≤ c && c ≤ 'z') || ('A' ≤ c && c ≤ 'Z') || c = '_'

/-- Does a single character match an atom? -/
def matchRAtom : RAtom → Char → Bool
  | .lit d, c => c = d
  | .anyChar, c => !(c = '\n' || c = '\r' || c = '\u2028' || c = '\u2029')
  | .clsS, c => isJsWS c
  | .clsSneg, c => !isJsWS c
  | .clsD, c => isDigitCh c
  | .clsDneg, c => !isDigitCh c
  | .clsW, c => isWordCh c
  | .clsWneg, c => !isWordCh c

/-- One piece of a compiled pattern: an atom with a repetition range
(`hi = none` meaning unbounded). -/
structure RPiece where
  atom : RAtom
  lo : Nat
  hi : Option Nat
  deriving DecidableEq

/-- Backtracking search for a repetition count: try `k` characters for
the current piece, retreating one at a time down to `lo`, and return
the total length of the first overall match. -/
def searchK (f : List Char → Option Nat) (s : List Char) (lo : Nat) (k : Nat) : Option Nat :=
  match f (s.drop k) with
  | some m => some (k + m)
  | none => if h : lo < k then searchK f s lo (k - 1) else none
termination_by k
decreasing_by omega

/-- Greedy match of a compiled pattern at the start of a suffix,
returning the number of characters consumed.  Every atom consumes
exactly one character, so a piece first takes the longest available
run and then backtracks. -/
def matchPieces : List RPiece → List Char → Option Nat
  | [], _ => some 0
  | p :: rest, s =>
    let maxRun := (s.takeWhile (matchRAtom p.atom)).length
    let hi := match p.hi with | none => maxRun | some b => min b maxRun
    if p.lo ≤ hi then searchK (fun t => matchPieces rest t) s p.lo hi else none
termination_by ps _ => ps.length
decreasing_by simp

/-- Numeric value of a list of decimal digits. -/
def natOfDigits (ds : List Char) : Nat := ds.foldl (fun n c => n * 10 + (c.toNat - 48)) 0

/-- Parse the inside of a brace quantifier (after the opening brace):
`m}`, `m,}` or `m,n}`, rejecting an upper bound below the lower bound
exactly as the ECMAScript RegExp constructor does. -/
def parseBrace (s : List Char) : Option (Nat × Option Nat × List Char) :=
  let ds := s.takeWhile isDigitCh
  let r := s.drop ds.length
  if ds.isEmpty then none
  else
    match r with
    | '}' :: r2 => some (natOfDigits ds, some (natOfDigits ds), r2)
    | ',' :: r2 =>
      let ds2 := r2.takeWhile isDigitCh
      let r3 := r2.drop ds2.length
      match r3 with
      | '}' :: r4 =>
        if ds2.isEmpty then some (natOfDigits ds, none, r4)
        else if natOfDigits ds2 < natOfDigits ds then none
        else some (natOfDigits ds, some (natOfDigits ds2), r4)
      | _ => none
    | _ => none

/-- Atoms reachable through a backslash escape: the one-letter classes,
control-character escapes, and escaped special characters. -/
def escAtom (c : Char) : Option RAtom :=
  if c = 's' then some .clsS else if c = 'S' then some .clsSneg
  else if c = 'd' then some .clsD else if c = 'D' then some .clsDneg
  else if c = 'w' then some .clsW else if c = 'W' then some .clsWneg
  else if c = 't' then some (.lit '\t') else if c = 'n' then some (.lit '\n')
  else if c = 'r' then some (.lit '\r') else if c = 'f' then some (.lit '\x0c')
  else if c = 'v' then some (.lit '\x0b') else if c = '0' then some (.lit (Char.ofNat 0))
  else if c ∈ ['\\', '.', '*', '+', '?', '(', ')', '[', ']', '{', '}', '|', '^', '$', '/']
  then some (.lit c)
  else none

/-- Characters that cannot stand alone as a literal atom in the
modelled subset. -/
def isRegexSpecial (c : Char) : Bool :=
  c ∈ ['\\', '.', '*', '+', '?', '(', ')', '[', ']', '{', '}', '|', '^', '$']

/-- Parse one atom from the front of a pattern. -/
def parseRegexAtom : List Char → Option (RAtom × List Char)
  | [] => none
  | '\\' :: rest =>
    match rest with
    | [] => none
    | e :: r2 => (escAtom e).map (fun a => (a, r2))
  | '.' :: r => some (.anyChar, r)
  | c :: r => if isRegexSpecial c then none else some (.lit c, r)

/-- Compile a pattern into a piece sequence: atoms with optional
quantifiers.  The fuel only drives the recursion; each step consumes
at least one pattern character. -/
def compileSeqF : Nat → List Char → Option (List RPiece)
  | 0, _ => none
  | _ + 1, [] => some []
  | fuel + 1, s =>
    match parseRegexAtom s with
    | none => none
    | some (a, r) =>
      match r with
      | '*' :: r2 => (compileSeqF fuel r2).map (fun ps => ⟨a, 0, none⟩ :: ps)
      | '+' :: r2 => (compileSeqF fuel r2).map (fun ps => ⟨a, 1, none⟩ :: ps)
      | '?' :: r2 => (compileSeqF fuel r2).map (fun ps => ⟨a, 0, some 1⟩ :: ps)
      | '{' :: r2 =>
        match parseBrace r2 with
        | none => none
        | some (lo, hiB, r3) => (compileSeqF fuel r3).map (fun ps => ⟨a, lo, hiB⟩ :: ps)
      | _ => (compileSeqF fuel r).map (fun ps => ⟨a, 1, some 1⟩ :: ps)

/-- Models the ECMAScript RegExp constructor `new RegExp(pattern, "g")`
over the subset of patterns this component works with: sequences of
literal characters, dot, escapes and one-letter classes, each with an
optional greedy quantifier.  Patterns using constructs outside the
subset (groups, bracket classes, alternation, anchors, lazy
quantifiers) are conservatively rejected; genuinely ill-formed
patterns such as an unbalanced parenthesis or a trailing backslash
are rejected exactly as in ECMAScript. -/
def compileRegex (pat : List Char) : Option (List RPiece) :=
  compileSeqF (pat.length + 1) pat

/-- The delimiter policy union type of `parseTextToRows`. -/
inductive Delim where
  | auto | comma | tab | pipe | spaces | custom
  deriving DecidableEq

/-- The options record passed to `parseTextToRows`. -/
structure ParseOpts where
  delimiter : Delim
  customPattern : Option (List Char)
  deriving DecidableEq

/-- The comma splitter of `parseTextToRows`. -/
def splitComma (s : List Char) : List (List Char) := jsSplit matchCommaAt s

/-- The tab splitter of `parseTextToRows`. -/
def splitTab (s : List Char) : List (List Char) := jsSplit matchTabAt s

/-- The pipe splitter of `parseTextToRows`. -/
def splitPipe (s : List Char) : List (List Char) := jsSplit matchPipeAt s

/-- The multi-space splitter of `parseTextToRows`. -/
def splitSpaces (s : List Char) : List (List Char) := jsSplit matchSpacesAt s

/-- Step 1 of `parseTextToRows`: split the text on the line separator
expression, trim every line, and keep the lines that are non-empty
after trimming. -/
def linesOf (text : List Char) : List (List Char) :=
  ((jsSplit matchEOL text).map jsTrim).filter (fun l => decide (0 < l.length))

/-- The auto-detection sample: the first ten retained lines joined with
a line feed (`lines.slice(0, 10).join("\n")`). -/
def sampleOf (lines : List (List Char)) : List Char :=
  List.intercalate ['\n'] (lines.take 10)

/-- The `autoGuess` heuristic of `parseTextToRows`: pipe, then comma,
then tab, then multi-spaces, judged on the sample. -/
def autoSplitter (lines : List (List Char)) : List Char → List (List Char) :=
  if (sampleOf lines).contains '|' then splitPipe
  else if (sampleOf lines).contains ',' then splitComma
  else if (sampleOf lines).contains '\t' then splitTab
  else splitSpaces

/-- The splitter selection switch of `parseTextToRows`; the custom
branch compiles the user pattern and falls back to the multi-space
splitter when compilation fails. -/
def chooseSplitter (lines : List (List Char)) (o : ParseOpts) : List Char → List (List Char) :=
  match o.delimiter with
  | .comma => splitComma
  | .tab => splitTab
  | .pipe => splitPipe
  | .spaces => splitSpaces
  | .custom =>
    match compileRegex (o.customPattern.getD "\\s+".toList) with
    | some re => jsSplit (fun t => matchPieces re t)
    | none => splitSpaces
  | .auto => autoSplitter lines

/-- `parseTextToRows` from OcrAgent.tsx: retained trimmed lines, each
split by the selected splitter, each resulting cell trimmed. -/
def parseTextToRows (text : List Char) (o : ParseOpts) : List (List (List Char)) :=
  (linesOf text).map (fun l => (chooseSplitter (linesOf text) o l).map jsTrim)

/-- The status union type of a job record. -/
inductive JStatus where
  | idle | recognizing | done | error
  deriving DecidableEq

/-- The per-file job record (`ExtractResult` in OcrAgent.tsx), extended
with a ghost `jobId` minted at submission time; the ghost field never
influences any transition and only serves to state which job a record
is. -/
structure JobRec where
  jobId : Nat
  fileName : String
  text : String
  progress : ℚ
  status : JStatus
  errMsg : Option String
  deriving DecidableEq

/-- An in-flight recognition task: the ghost identity of the job it was
started for, and the positional index its closure captured
(`extracts.length + index`, where `extracts.length` is the length the
`handleFiles` closure saw at its creating render). -/
structure TaskRec where
  taskJobId : Nat
  localIndex : Nat
  deriving DecidableEq

/-- The orchestrator state: the `extracts` React state, the length of
`extracts` captured by the current `handleFiles` closure (the
`useCallback` dependency is `extracts.length`), the in-flight tasks,
and the ghost id counter. -/
structure OrchState where
  extracts : List JobRec
  renderedLen : Nat
  tasks : List TaskRec
  nextId : Nat
  deriving DecidableEq

/-- Events of the orchestrator: a `handleFiles` call, a React re-render
(which refreshes the closure's captured length), `clearAll`, and the
progress / resolve / reject callbacks of an in-flight recognition
task. -/
inductive OEvent where
  | submit (names : List String)
  | render
  | clearAll
  | progressEv (t : TaskRec) (p : ℚ)
  | succeedEv (t : TaskRec) (txt : String)
  | failEv (t : TaskRec) (msg : String)
  deriving DecidableEq

/-- Mutate the list element at an index when it exists, leave the list
unchanged otherwise: the `if (next[localIndex]) ...` update pattern of
`handleFiles`. -/
def setIdx : List JobRec → Nat → (JobRec → JobRec) → List JobRec
  | [], _, _ => []
  | x :: xs, 0, f => f x :: xs
  | x :: xs, n + 1, f => x :: setIdx xs n f

/-- One orchestrator transition, transcribing `handleFiles`
(submission and the three callback updates), `clearAll`, and the
re-render that refreshes the `handleFiles` closure. -/
def stepO (s : OrchState) : OEvent → OrchState
  | .submit names =>
    { extracts := s.extracts ++ names.enum.map (fun p =>
        { jobId := s.nextId + p.1, fileName := p.2, text := "", progress := 0,
          status := .recognizing, errMsg := none }),
      renderedLen := s.renderedLen,
      tasks := s.tasks ++ names.enum.map (fun p =>
        { taskJobId := s.nextId + p.1, localIndex := s.renderedLen + p.1 }),
      nextId := s.nextId + names.length }
  | .render => { s with renderedLen := s.extracts.length }
  | .clearAll => { s with extracts := [] }
  | .progressEv t p =>
    { s with extracts := setIdx s.extracts t.localIndex (fun j => { j with progress := p }) }
  | .succeedEv t txt =>
    { s with
      extracts := setIdx s.extracts t.localIndex
        (fun j => { j with text := txt, progress := 1, status := .done }),
      tasks := s.tasks.erase t }
  | .failEv t msg =>
    { s with
      extracts := setIdx s.extracts t.localIndex
        (fun j => { j with status := .error, errMsg := some msg }),
      tasks := s.tasks.erase t }

/-- The initial orchestrator state: no jobs, no tasks. -/
def orchInit : OrchState :=
  { extracts := [], renderedLen := 0, tasks := [], nextId := 0 }

/-- Run a sequence of orchestrator events. -/
def runO (s : OrchState) (es : List OEvent) : OrchState := es.foldl stepO s

/-- Is an event possible in a state?  Task callbacks can only come from
a task that is actually in flight, and progress values lie in the
unit interval (§5 of the design: events for a task are its progress
notifications followed by one terminal event). -/
def eventOk (s : OrchState) : OEvent → Bool
  | .progressEv t p => decide (t ∈ s.tasks) && decide ((0 : ℚ) ≤ p) && decide (p ≤ 1)
  | .succeedEv t _ => decide (t ∈ s.tasks)
  | .failEv t _ => decide (t ∈ s.tasks)
  | _ => true

/-- Is a whole event sequence possible from a state? -/
def validFrom (s : OrchState) : List OEvent → Bool
  | [] => true
  | e :: es => eventOk s e && validFrom (stepO s e) es

/-- The filter `handleAppend` applies before parsing: a job is used
when its status is `done` and its text is non-blank. -/
def jobDoneWithText (x : JobRec) : Bool :=
  decide (x.status = JStatus.done) && decide (0 < (jsTrim x.text.toList).length)

/-- The per-job parsed row batches built by `handleAppend`. -/
def doneBlocks (extracts : List JobRec) (o : ParseOpts) : List (List (List (List Char))) :=
  (extracts.filter jobDoneWithText).map (fun x => parseTextToRows x.text.toList o)

/-- The row-table update of `handleAppend`: flatten the batches and
append them to the previous rows. -/
def handleAppend (extracts : List JobRec) (rows : List (List (List Char))) (o : ParseOpts) :
    List (List (List Char)) :=
  rows ++ (doneBlocks extracts o).flatten

/-- The accumulator-facing component state: job records, the raw
column-labels input string, and the accumulated rows. -/
structure AgentState where
  extracts : List JobRec
  columnsInput : List Char
  rows : List (List (List Char))
  deriving DecidableEq

/-- The Clear-rows button action: `setRows([])`. -/
def clearRows (s : AgentState) : AgentState := { s with rows := [] }

/-- The `columns` memo: the column-labels input split on commas, each
label trimmed, blank labels dropped. -/
def columnsOf (s : AgentState) : List (List Char) :=
  ((jsSplit matchCommaChar s.columnsInput).map jsTrim).filter (fun c => decide (0 < c.length))

/-- Prepend a character to the first piece of a piece list. -/
def consHeadC (c : Char) : List (List Char) → List (List Char)
  | [] => [[c]]
  | l :: ls => (c :: l) :: ls

/-- Modelled from the spec: splitting "on any line-ending convention",
read as recognising the three established conventions LF, CRLF and
lone CR as line breaks. -/
def splitAnyEOL : List Char → List (List Char)
  | [] => [[]]
  | '\r' :: '\n' :: rest => [] :: splitAnyEOL rest
  | '\r' :: rest => [] :: splitAnyEOL rest
  | '\n' :: rest => [] :: splitAnyEOL rest
  | c :: rest => consHeadC c (splitAnyEOL rest)

/-- Modelled from the spec: step 1 under the "any line-ending
convention" reading — split on LF, CRLF or lone CR, trim every line,
keep the non-blank lines in order. -/
def step1AnySpec (text : List Char) : List (List Char) :=
  ((splitAnyEOL text).map jsTrim).filter (fun l => decide (0 < l.length))

/-- Direct structural description of splitting on LF or CRLF only (a
carriage return not followed by a line feed stays inside its line);
the reference point of the amended step-1 claim. -/
def splitLFCRLF : List Char → List (List Char)
  | [] => [[]]
  | [c] => if c = '\n' then [[], []] else [[c]]
  | c :: d :: rest =>
    if c = '\r' ∧ d = '\n' then [] :: splitLFCRLF rest
    else if c = '\n' then [] :: splitLFCRLF (d :: rest)
    else consHeadC c (splitLFCRLF (d :: rest))

/-- Step 1 as amended: split on LF or CRLF, trim every line, keep the
non-blank lines in order. -/
def step1LFCRLFSpec (text : List Char) : List (List Char) :=
  ((splitLFCRLF text).map jsTrim).filter (fun l => decide (0 < l.length))

/-- The rational number 7/10, given in normal form so that kernel
evaluation never has to normalize. -/
def q7over10 : ℚ := ⟨7, 10, by norm_num, by norm_num⟩

/-- The rational number 3/10, given in normal form so that kernel
evaluation never has to normalize. -/
def q3over10 : ℚ := ⟨3, 10, by norm_num, by norm_num⟩

/-- Failing event sequence for claim C1: one file is submitted, the
list is cleared and re-rendered, a second file is submitted, and then
the still-running first task posts a progress notification. -/
def c1Trace : List OEvent :=
  [.submit ["a.png"], .render, .clearAll, .render, .submit ["b.png"],
   .progressEv ⟨0, 0⟩ q7over10]

/-- Failing event sequence for claim C2: one file is submitted, the
list is cleared and re-rendered, a second file is submitted, and then
the first task — still in flight at the moment of the clear —
resolves. -/
def c2Trace : List OEvent :=
  [.submit ["a.png"], .render, .clearAll, .render, .submit ["b.png"],
   .succeedEv ⟨0, 0⟩ "stale text of a"]

/-- Failing event sequence for claim C3: after a clear and a second
submission, the second job finishes (`done`, progress 1), and then
the first job's still-running task posts a progress notification. -/
def c3Trace : List OEvent :=
  [.submit ["a.png"], .render, .clearAll, .render, .submit ["b.png"], .render,
   .succeedEv ⟨1, 0⟩ "text of b", .progressEv ⟨0, 0⟩ q3over10]

/-- Claim C1 (code_bug evidence): on the failing event sequence
`c1Trace` — a second submission while the first recognition task is
still in flight — the progress notification of the task started for
job 0 ("a.png") is applied to the record of job 1 ("b.png"), so an
event of one job's task mutates a different job's record.  The
sequence is a possible one (`validFrom`), yet the final state shows
job 1's record carrying job 0's progress value. -/
theorem c1_progress_event_crosses_jobs :
    validFrom orchInit c1Trace = true ∧
    (runO orchInit c1Trace).extracts.map
        (fun j => (j.jobId, j.fileName, j.progress, j.status)) =
      [(1, "b.png", q7over10, JStatus.recognizing)] := by
  constructor
  · decide
  · decide

/-- Claim C2 (code_bug evidence): on the failing event sequence
`c2Trace`, a task still in flight when `clearAll` ran resolves after
a new job has been created, and its result is applied to the new
job's record instead of being discarded: the final state shows job
1's record marked `done` with the stale text of job 0. -/
theorem c2_inflight_result_lands_after_clear :
    validFrom orchInit c2Trace = true ∧
    (runO orchInit c2Trace).extracts.map
        (fun j => (j.jobId, j.fileName, j.text, j.status)) =
      [(1, "b.png", "stale text of a", JStatus.done)] := by
  constructor
  · decide
  · decide

/-- Claim C3 (code_bug evidence): on the failing event sequence
`c3Trace`, job 1's record first reaches the terminal state `done`
with progress 1 (state after the first seven events), and is then
mutated again — its progress is overwritten with 3/10 by a progress
notification of job 0's still-running task. -/
theorem c3_done_record_mutated_again :
    validFrom orchInit c3Trace = true ∧
    (runO orchInit (c3Trace.take 7)).extracts.map
        (fun j => (j.jobId, j.status, j.progress)) = [(1, JStatus.done, 1)] ∧
    (runO orchInit c3Trace).extracts.map
        (fun j => (j.jobId, j.status, j.progress)) = [(1, JStatus.done, q3over10)] := by
  refine ⟨?_, ?_, ?_⟩
  · decide
  · decide
  · decide

/-- Claim C4: whenever the auto-detection sample (the first ten
retained lines) contains a pipe character, parsing under the `auto`
policy returns exactly the rows of the explicit `pipe` policy,
whatever else the sample contains. -/
theorem c4_auto_with_pipe_matches_pipe (text : List Char) (cp : Option (List Char))
    (h : '|' ∈ sampleOf (linesOf text)) :
    parseTextToRows text ⟨.auto, cp⟩ = parseTextToRows text ⟨.pipe, cp⟩ := by
  unfold parseTextToRows chooseSplitter autoSplitter
  simp [h]

/-- Witness for C4 at a concrete text whose sample contains a pipe as
well as a comma and a tab. -/
theorem c4_witness :
    '|' ∈ sampleOf (linesOf "Item | Qty, x\ty\nApple | 3".toList) ∧
    parseTextToRows "Item | Qty, x\ty\nApple | 3".toList ⟨.auto, none⟩ =
      parseTextToRows "Item | Qty, x\ty\nApple | 3".toList ⟨.pipe, none⟩ :=
  ⟨by decide, c4_auto_with_pipe_matches_pipe "Item | Qty, x\ty\nApple | 3".toList none (by decide)⟩

/-- Claim C5: when the custom pattern does not compile, parsing under
the `custom` policy silently returns exactly the `spaces`-policy
result on the same text. -/
theorem c5_invalid_pattern_behaves_as_spaces (text : List Char) (pat : List Char)
    (h : compileRegex pat = none) :
    parseTextToRows text ⟨.custom, some pat⟩ = parseTextToRows text ⟨.spaces, some pat⟩ := by
  unfold parseTextToRows chooseSplitter
  simp [h]

/-- Witness for C5 at the genuinely ill-formed pattern "(" and a
concrete text. -/
theorem c5_witness :
    compileRegex "(".toList = none ∧
    parseTextToRows "a  b\nc   d".toList ⟨.custom, some "(".toList⟩ =
      parseTextToRows "a  b\nc   d".toList ⟨.spaces, some "(".toList⟩ :=
  ⟨by decide, c5_invalid_pattern_behaves_as_spaces "a  b\nc   d".toList "(".toList (by decide)⟩

/-- Claim C9: the Clear-rows action empties the rows and touches
nothing else — the raw column input, the derived column labels and
the job records are unchanged. -/
theorem c9_clear_rows_frame (s : AgentState) :
    (clearRows s).rows = [] ∧ (clearRows s).columnsInput = s.columnsInput ∧
    (clearRows s).extracts = s.extracts ∧ columnsOf (clearRows s) = columnsOf s :=
  ⟨rfl, rfl, rfl, rfl⟩

/-- Every batch of a flattened batch list sits intact at the offset
given by the total length of the batches before it. -/
theorem flatten_extract {α : Type} (bs : List (List α)) :
    ∀ (i : Nat) (h : i < bs.length),
      (bs.flatten.drop (((bs.take i).map List.length).sum)).take (bs.get ⟨i, h⟩).length
        = bs.get ⟨i, h⟩ := by
  induction bs with
  | nil => intro i h; simp at h
  | cons b bs ih =>
    intro i h
    cases i with
    | zero => simp [List.take_left]
    | succ i =>
      have hi : i < bs.length := by simpa using h
      have hdrop : (b ++ bs.flatten).drop (b.length + ((bs.take i).map List.length).sum)
          = bs.flatten.drop (((bs.take i).map List.length).sum) := by
        simp [List.drop_append]
      simpa [hdrop] using ih i hi

/-- Claim C7: appending the parsed batches increases the row count by
exactly the sum of the batch sizes, leaves the previously accumulated
rows unchanged at the front, and places every batch intact — in batch
order and in within-batch order — after them. -/
theorem c7_append_preserves_batches (extracts : List JobRec) (rows : List (List (List Char)))
    (o : ParseOpts) (i : Nat) (h : i < (doneBlocks extracts o).length) :
    (handleAppend extracts rows o).length
        = rows.length + ((doneBlocks extracts o).map List.length).sum ∧
    (handleAppend extracts rows o).take rows.length = rows ∧
    ((handleAppend extracts rows o).drop
        (rows.length + (((doneBlocks extracts o).take i).map List.length).sum)).take
        ((doneBlocks extracts o).get ⟨i, h⟩).length
      = (doneBlocks extracts o).get ⟨i, h⟩ := by
  refine ⟨?_, ?_, ?_⟩
  · simp [handleAppend, List.length_flatten]
  · simp [handleAppend, List.take_left]
  · have hdrop : (handleAppend extracts rows o).drop
        (rows.length + (((doneBlocks extracts o).take i).map List.length).sum)
        = (doneBlocks extracts o).flatten.drop
            ((((doneBlocks extracts o).take i).map List.length).sum) := by
      simp [handleAppend, List.drop_append]
    rw [hdrop]
    exact flatten_extract (doneBlocks extracts o) i h

/-- Concrete job list for the C7 witness: two completed jobs with
comma-separated text. -/
def c7Extracts : List JobRec :=
  [{ jobId := 0, fileName := "a.png", text := "a,b\nc,d", progress := 1,
     status := .done, errMsg := none },
   { jobId := 1, fileName := "b.png", text := "e,f", progress := 1,
     status := .done, errMsg := none }]

/-- Witness for C7 at two concrete batches appended onto one existing
row, checked at batch index 1. -/
theorem c7_witness :
    1 < (doneBlocks c7Extracts ⟨.comma, none⟩).length ∧
    ((handleAppend c7Extracts [[['x']]] ⟨.comma, none⟩).length
        = [[['x']]].length + ((doneBlocks c7Extracts ⟨.comma, none⟩).map List.length).sum ∧
     (handleAppend c7Extracts [[['x']]] ⟨.comma, none⟩).take [[['x']]].length = [[['x']]] ∧
     ((handleAppend c7Extracts [[['x']]] ⟨.comma, none⟩).drop
        ([[['x']]].length
          + (((doneBlocks c7Extracts ⟨.comma, none⟩).take 1).map List.length).sum)).take
        ((doneBlocks c7Extracts ⟨.comma, none⟩).get ⟨1, by decide⟩).length
      = (doneBlocks c7Extracts ⟨.comma, none⟩).get ⟨1, by decide⟩) :=
  ⟨by decide, c7_append_preserves_batches c7Extracts [[['x']]] ⟨.comma, none⟩ 1 (by decide)⟩

/-- Every character of every piece produced by the split loop comes
from the accumulated piece or from the input suffix. -/
theorem mem_jsSplitF (m : List Char → Option Nat) :
    ∀ (f : Nat) (acc s piece : List Char), piece ∈ jsSplitF m f acc s →
      ∀ c ∈ piece, c ∈ acc ∨ c ∈ s := by
  intro f
  induction f with
  | zero =>
    intro acc s piece hp c hc
    cases s with
    | nil =>
      simp [jsSplitF] at hp
      subst hp; exact .inl hc
    | cons d r =>
      simp [jsSplitF] at hp
      subst hp
      rcases List.mem_append.1 hc with h' | h'
      · exact .inl h'
      · exact .inr h'
  | succ f ih =>
    intro acc s piece hp c hc
    cases s with
    | nil =>
      simp [jsSplitF] at hp
      subst hp; exact .inl hc
    | cons d r =>
      rw [jsSplitF] at hp
      rcases hm : m (d :: r) with _ | n <;> rw [hm] at hp
      · rcases ih (acc ++ [d]) r piece hp c hc with h' | h'
        · rcases List.mem_append.1 h' with h'' | h''
          · exact .inl h''
          · simp only [List.mem_singleton] at h''
            subst h''
            exact .inr (List.mem_cons_self _ _)
        · exact .inr (List.mem_cons_of_mem d h')
      · cases n with
        | zero =>
          by_cases hacc : acc.isEmpty
          · rw [if_pos hacc] at hp
            rcases ih [d] r piece hp c hc with h' | h'
            · simp only [List.mem_singleton] at h'
              subst h'
              exact .inr (List.mem_cons_self _ _)
            · exact .inr (List.mem_cons_of_mem d h')
          · rw [if_neg hacc] at hp
            rcases List.mem_cons.1 hp with h' | h'
            · subst h'; exact .inl hc
            · rcases ih [d] r piece h' c hc with h'' | h''
              · simp only [List.mem_singleton] at h''
                subst h''
                exact .inr (List.mem_cons_self _ _)
              · exact .inr (List.mem_cons_of_mem d h'')
        | succ n =>
          rcases List.mem_cons.1 hp with h' | h'
          · subst h'; exact .inl hc
          · rcases ih [] (r.drop n) piece h' c hc with h'' | h''
            · simp at h''
            · exact .inr (List.mem_cons_of_mem d (List.mem_of_mem_drop h''))

/-- Trimming a list of white-space characters yields the empty list. -/
theorem jsTrim_eq_nil (l : List Char) (h : ∀ c ∈ l, isJsWS c = true) : jsTrim l = [] := by
  unfold jsTrim
  have h1 : l.dropWhile isJsWS = [] := by
    rw [List.dropWhile_eq_nil_iff]
    exact h
  simp [h1]

/-- A text consisting only of white space yields no retained lines. -/
theorem linesOf_blank (text : List Char) (h : ∀ c ∈ text, isJsWS c = true) :
    linesOf text = [] := by
  unfold linesOf
  rw [List.filter_eq_nil_iff]
  intro a ha
  simp only [List.mem_map] at ha
  obtain ⟨piece, hpiece, rfl⟩ := ha
  have hsub : ∀ c ∈ piece, c ∈ text := by
    intro c hc
    cases text with
    | nil =>
      simp [jsSplit, matchEOL] at hpiece
      subst hpiece; simp at hc
    | cons d r =>
      have hmem := mem_jsSplitF matchEOL ((d :: r).length + 1) [] (d :: r) piece
        (by simpa [jsSplit] using hpiece) c hc
      rcases hmem with h' | h'
      · simp at h'
      · exact h'
  have htrim : jsTrim piece = [] := jsTrim_eq_nil piece (fun c hc => h c (hsub c hc))
  simp [htrim]

/-- Claim C8: a text that is empty or consists only of white space
parses to zero rows under every delimiter policy. -/
theorem c8_blank_text_zero_rows (text : List Char) (o : ParseOpts)
    (h : ∀ c ∈ text, isJsWS c = true) :
    parseTextToRows text o = [] := by
  unfold parseTextToRows
  rw [linesOf_blank text h]
  simp

/-- Witness for C8 at a concrete white-space-only text under the
`auto` policy. -/
theorem c8_witness :
    (∀ c ∈ " \n\t ".toList, isJsWS c = true) ∧
    parseTextToRows " \n\t ".toList ⟨.auto, none⟩ = [] :=
  ⟨by decide, c8_blank_text_zero_rows " \n\t ".toList ⟨.auto, none⟩ (by decide)⟩

/-- On a suffix headed by one character, the split loop driven by a
separator that matches zero characters everywhere cuts between every
pair of adjacent characters. -/
theorem jsSplitF_const0 :
    ∀ (rest : List Char) (f : Nat) (c : Char), rest.length ≤ f →
      jsSplitF (fun _ => some 0) (f + 1) [c] rest
        = [c] :: rest.map (fun d => [d]) := by
  intro rest
  induction rest with
  | nil => intro f c _; simp [jsSplitF]
  | cons d r ih =>
    intro f c h
    obtain ⟨f', rfl⟩ : ∃ f', f = f' + 1 := ⟨f - 1, by simp at h; omega⟩
    simp only [jsSplitF, List.isEmpty_cons, Bool.false_eq_true, if_false]
    rw [ih f' d (by simp at h; omega)]
    simp

/-- Splitting a non-empty string on a separator that matches zero
characters everywhere yields its characters one by one. -/
theorem jsSplit_const0 (l : List Char) (h : l ≠ []) :
    jsSplit (fun _ => some 0) l = l.map (fun d => [d]) := by
  cases l with
  | nil => exact absurd rfl h
  | cons c r =>
    show jsSplitF (fun _ => some 0) (r.length + 1 + 1) [] (c :: r) = _
    simp only [jsSplitF, List.isEmpty_nil, if_true]
    rw [jsSplitF_const0 r r.length c (Nat.le_refl _)]
    simp

/-- Claim C10: under the `custom` policy with the empty pattern string
(the initial value of the custom-pattern field) the pattern compiles,
so the spaces fallback is not taken, and every retained line is split
between every pair of characters: the resulting row has one cell per
character of the line, each cell the trimmed one-character string. -/
theorem c10_empty_pattern_per_char_cells (text : List Char) :
    (compileRegex []).isSome = true ∧
    parseTextToRows text ⟨.custom, some []⟩ =
      (linesOf text).map (fun l => l.map (fun c => jsTrim [c])) := by
  refine ⟨rfl, ?_⟩
  have hm : (fun t => matchPieces [] t) = (fun _ : List Char => some (0 : Nat)) :=
    funext (fun t => by simp [matchPieces])
  unfold parseTextToRows chooseSplitter
  simp only [show compileRegex (((some ([] : List Char)).getD "\\s+".toList)) = some [] from rfl,
    hm]
  refine List.map_congr_left ?_
  intro l hl
  have hne : l ≠ [] := by
    intro hnil
    have := List.of_mem_filter hl
    rw [hnil] at this
    simp at this
  rw [jsSplit_const0 l hne, List.map_map]
  rfl

/-- Prepend an accumulated prefix to the first piece of a piece list. -/
def consHeadAll (acc : List Char) : List (List Char) → List (List Char)
  | [] => [acc]
  | l :: ls => (acc ++ l) :: ls

/-- Prepending a character never empties a piece list. -/
theorem consHeadC_ne_nil (c : Char) (L : List (List Char)) : consHeadC c L ≠ [] := by
  cases L <;> simp [consHeadC]

/-- Unfolding equation of `matchEOL` on a one-character suffix. -/
theorem matchEOL_one (c : Char) : matchEOL [c] = if c = '\n' then some 1 else none := rfl

/-- Unfolding equation of `matchEOL` on a suffix of two or more
characters. -/
theorem matchEOL_cons2 (c d : Char) (rest : List Char) :
    matchEOL (c :: d :: rest)
      = if c = '\r' ∧ d = '\n' then some 2 else if c = '\n' then some 1 else none := rfl

/-- Unfolding equation of `splitLFCRLF` on a one-character input. -/
theorem splitLFCRLF_one (c : Char) :
    splitLFCRLF [c] = if c = '\n' then [[], []] else [[c]] := rfl

/-- Unfolding equation of `splitLFCRLF` on an input of two or more
characters. -/
theorem splitLFCRLF_cons2 (c d : Char) (rest : List Char) :
    splitLFCRLF (c :: d :: rest)
      = if c = '\r' ∧ d = '\n' then [] :: splitLFCRLF rest
        else if c = '\n' then [] :: splitLFCRLF (d :: rest)
        else consHeadC c (splitLFCRLF (d :: rest)) := rfl

/-- The LF/CRLF splitter always yields at least one piece. -/
theorem splitLFCRLF_ne_nil : ∀ s : List Char, splitLFCRLF s ≠ [] := by
  intro s
  rcases s with _ | ⟨c, _ | ⟨d, rest⟩⟩
  · simp [splitLFCRLF]
  · rw [splitLFCRLF_one]
    split_ifs <;> simp
  · rw [splitLFCRLF_cons2]
    split_ifs
    · simp
    · simp
    · exact consHeadC_ne_nil _ _

/-- Absorbing a character into the accumulated prefix commutes with
prepending it to the first piece. -/
theorem consHeadAll_consHeadC (acc : List Char) (c : Char) (L : List (List Char)) :
    consHeadAll acc (consHeadC c L) = consHeadAll (acc ++ [c]) L := by
  cases L <;> simp [consHeadC, consHeadAll]

/-- The split loop driven by the line separator expression computes
exactly the LF/CRLF split of the remaining input, prefixed with the
accumulated piece. -/
theorem jsSplitF_eol :
    ∀ (f : Nat) (s acc : List Char), s.length ≤ f →
      jsSplitF matchEOL f acc s = consHeadAll acc (splitLFCRLF s) := by
  intro f
  induction f with
  | zero =>
    intro s acc h
    have hs : s = [] := by
      cases s with
      | nil => rfl
      | cons c r => simp at h
    subst hs
    simp [jsSplitF, splitLFCRLF, consHeadAll]
  | succ f ih =>
    intro s acc h
    rcases s with _ | ⟨c, _ | ⟨d, rest⟩⟩
    · simp [jsSplitF, splitLFCRLF, consHeadAll]
    · by_cases hc : c = '\n'
      · subst hc
        show (match matchEOL ['\n'] with
          | none => jsSplitF matchEOL f (acc ++ ['\n']) []
          | some 0 =>
            if acc.isEmpty then jsSplitF matchEOL f ['\n'] []
            else acc :: jsSplitF matchEOL f ['\n'] []
          | some (n + 1) => acc :: jsSplitF matchEOL f [] (([] : List Char).drop n))
          = consHeadAll acc (splitLFCRLF ['\n'])
        rw [show matchEOL ['\n'] = some 1 from rfl]
        simp [jsSplitF, splitLFCRLF_one, consHeadAll]
      · show (match matchEOL [c] with
          | none => jsSplitF matchEOL f (acc ++ [c]) []
          | some 0 =>
            if acc.isEmpty then jsSplitF matchEOL f [c] []
            else acc :: jsSplitF matchEOL f [c] []
          | some (n + 1) => acc :: jsSplitF matchEOL f [] (([] : List Char).drop n))
          = consHeadAll acc (splitLFCRLF [c])
        rw [matchEOL_one, if_neg hc]
        simp [jsSplitF, splitLFCRLF_one, hc, consHeadAll]
    · show (match matchEOL (c :: d :: rest) with
        | none => jsSplitF matchEOL f (acc ++ [c]) (d :: rest)
        | some 0 =>
          if acc.isEmpty then jsSplitF matchEOL f [c] (d :: rest)
          else acc :: jsSplitF matchEOL f [c] (d :: rest)
        | some (n + 1) => acc :: jsSplitF matchEOL f [] ((d :: rest).drop n))
        = consHeadAll acc (splitLFCRLF (c :: d :: rest))
      rw [matchEOL_cons2, splitLFCRLF_cons2]
      by_cases hcr : c = '\r' ∧ d = '\n'
      · rw [if_pos hcr, if_pos hcr]
        have hlen : rest.length ≤ f := by
          simp only [List.length_cons] at h; omega
        have ih1 := ih rest [] hlen
        obtain ⟨l, ls, hL⟩ := List.exists_cons_of_ne_nil (splitLFCRLF_ne_nil rest)
        rw [hL] at ih1
        simp only [consHeadAll, List.nil_append] at ih1
        show acc :: jsSplitF matchEOL f [] ((d :: rest).drop 1)
          = consHeadAll acc ([] :: splitLFCRLF rest)
        rw [List.drop_succ_cons, List.drop_zero, ih1, hL]
        simp [consHeadAll]
      · rw [if_neg hcr, if_neg hcr]
        by_cases hc : c = '\n'
        · rw [if_pos hc, if_pos hc]
          have hlen : (d :: rest).length ≤ f := by
            simp only [List.length_cons] at h ⊢; omega
          have ih1 := ih (d :: rest) [] hlen
          obtain ⟨l, ls, hL⟩ := List.exists_cons_of_ne_nil (splitLFCRLF_ne_nil (d :: rest))
          rw [hL] at ih1
          simp only [consHeadAll, List.nil_append] at ih1
          show acc :: jsSplitF matchEOL f [] ((d :: rest).drop 0)
            = consHeadAll acc ([] :: splitLFCRLF (d :: rest))
          rw [List.drop_zero, ih1, hL]
          simp [consHeadAll]
        · rw [if_neg hc, if_neg hc]
          have hlen : (d :: rest).length ≤ f := by
            simp only [List.length_cons] at h ⊢; omega
          have ih1 := ih (d :: rest) (acc ++ [c]) hlen
          show jsSplitF matchEOL f (acc ++ [c]) (d :: rest)
            = consHeadAll acc (consHeadC c (splitLFCRLF (d :: rest)))
          rw [ih1, consHeadAll_consHeadC]

/-- The component's line split (the ES split algorithm on the line
separator expression) coincides with the direct LF/CRLF splitter. -/
theorem jsSplit_eol (text : List Char) : jsSplit matchEOL text = splitLFCRLF text := by
  cases text with
  | nil => simp [jsSplit, matchEOL, splitLFCRLF]
  | cons c r =>
    obtain ⟨l, ls, hL⟩ := List.exists_cons_of_ne_nil (splitLFCRLF_ne_nil (c :: r))
    show jsSplitF matchEOL ((c :: r).length + 1) [] (c :: r) = _
    rw [jsSplitF_eol ((c :: r).length + 1) (c :: r) [] (by simp), hL]
    simp [consHeadAll]

/-- Claim C6 counterexample: the text consisting of `a`, a lone
carriage return, and `b` refutes the claim as stated — under the
"any line-ending convention" reading the lone carriage return is a
line break and step 1 would give the two lines `a` and `b`, but the
code keeps the carriage return inside one single line. -/
theorem c6_counterexample_lone_cr :
    linesOf "a\rb".toList ≠ step1AnySpec "a\rb".toList ∧
    linesOf "a\rb".toList = [['a', '\r', 'b']] ∧
    step1AnySpec "a\rb".toList = [['a'], ['b']] := by
  refine ⟨by decide, by decide, by decide⟩

/-- Claim C6 as amended: step 1 of parsing splits the text into lines
on LF or CRLF line endings (a carriage return not followed by a line
feed is not a line break), trims each line, discards lines that are
empty after trimming, and preserves the order of the remaining
lines; the rest of parsing operates on exactly these lines. -/
theorem c6_step1_splits_lf_crlf (text : List Char) (o : ParseOpts) :
    linesOf text = step1LFCRLFSpec text ∧
    parseTextToRows text o =
      (step1LFCRLFSpec text).map
        (fun l => (chooseSplitter (step1LFCRLFSpec text) o l).map jsTrim) := by
  have h : linesOf text = step1LFCRLFSpec text := by
    unfold linesOf step1LFCRLFSpec
    rw [jsSplit_eol]
  refine ⟨h, ?_⟩
  unfold parseTextToRows
  rw [h]
